import Mathlib

/-!
Shallow embedding of the wca-odds-next simulation server core
(`src/server/src/utils/...`), together with theorems settling the frozen
claims about its specification.

Conventions used throughout:
* Rust `i32` values are modelled as `Int`; the inputs of interest (WCA
  results in centiseconds, move counts times 100) are far from the `i32`
  range boundaries, so wrap-around is not modelled.
* Rust `/` and `%` on `i32` truncate toward zero; they are modelled by
  `Int.tdiv` and `Int.tmod`.  Where an operand is known to be
  nonnegative the embedding may use Lean's `/` and `%` (euclidean),
  which agree with the Rust operators there.
* Rust `f32`/`f64` arithmetic is modelled exactly, by `ℚ` where the code
  only adds, multiplies and divides, and by `ℝ` where square roots or
  powers appear.  A possibly-NaN `f32` field is modelled as `Option ℝ`
  with `none` playing the role of NaN.
* `slice::sort_unstable_by_key` sorts by the key but gives no guarantee
  on the relative order of elements with equal keys; it is therefore
  modelled relationally: any output that is a permutation of the input
  and is sorted by the key is admissible.
-/

namespace WcaOdds

/-- `DNF_VALUE` from `utils/wca/constants.rs`: the DNF sentinel,
one hour in centiseconds plus one. -/
def DNF_VALUE : Int := 60 * 60 * 100 + 1

/-- `EventType` from `utils/wca/events.rs`. -/
inductive EventType where
  | Ao5
  | Bo5
  | Mo3
  | Bo3
  | Fmc
deriving DecidableEq, Repr

/-- `EventType::num_solves` from `utils/wca/events.rs` (duplicated as the
free function `num_solves` in `utils/simulation.rs`). -/
def num_solves : EventType → Nat
  | .Ao5 => 5
  | .Bo5 => 5
  | .Mo3 => 3
  | .Fmc => 3
  | .Bo3 => 3

/-- Shared body of the `Mo3 | Fmc` arm of `calculate_average`
(`utils/wca/events.rs:61-77`, also inlined in `simulate_round`,
`utils/simulation.rs:123-139`): take the first 3 solves, return DNF if
any is `>= DNF_VALUE`, otherwise the truncated mean, nudged up by one
for FMC when `avg % 10 == 6`. -/
def mo3_score (solves : List Int) (isFmc : Bool) : Int :=
  let active := solves.take 3
  if active.any fun x => decide (DNF_VALUE ≤ x) then DNF_VALUE
  else
    let avg := Int.tdiv active.sum 3
    if isFmc ∧ Int.tmod avg 10 = 6 then avg + 1 else avg

/-- `calculate_average` from `utils/wca/events.rs:50-81` (identical logic
is inlined at the end of `simulate_round` in `utils/simulation.rs`).
The `solves` slice has length 5 at every call site.  Sorting an integer
slice ascending produces a unique list, so the concrete sorting
algorithm (`sort_unstable`) is irrelevant here and `insertionSort` is
used.  The `Bo3`/`Bo5` arms unwrap the minimum of a nonempty slice; the
`getD` fallback is unreachable at the call sites. -/
def calculate_average (solves : List Int) (eventType : EventType) : Int :=
  match eventType with
  | .Ao5 =>
    let sorted := solves.insertionSort (· ≤ ·)
    if DNF_VALUE ≤ sorted.getD 3 0 then DNF_VALUE
    else Int.tdiv (sorted.getD 1 0 + sorted.getD 2 0 + sorted.getD 3 0) 3
  | .Mo3 => mo3_score solves false
  | .Fmc => mo3_score solves true
  | .Bo3 => ((solves.take 3).min?).getD DNF_VALUE
  | .Bo5 => (solves.min?).getD DNF_VALUE

/-! ## Ranking (`run_simulations`, `utils/simulation/run.rs:136-161` and
`utils/simulation.rs:193-242`)

Per trial the code builds `round_results : Vec<(usize, i32)>` of
(original roster index, round result) pairs, sorts it with
`sort_unstable_by_key(|&(_, time)| time)`, and assigns rank `r` to the
contestant found at position `r` of the sorted vector.  The unstable
sort is modelled relationally by `IsSortedRoundResults`. -/

/-- Contract of `round_results.sort_unstable_by_key(|&(_, time)| time)`:
the output is some permutation of the input that is sorted by the result
value.  No stability guarantee exists, so every such permutation is an
admissible outcome. -/
def IsSortedRoundResults (output input : List (Nat × Int)) : Prop :=
  output.Perm input ∧ output.Sorted fun p q => p.2 ≤ q.2

/-- The rank a contestant receives in one trial: the position of its
(index, result) pair in the sorted `round_results` vector. -/
def rankOf (output : List (Nat × Int)) (i : Nat) : Nat :=
  output.findIdx fun p => p.1 == i

/-- `rank_dist_count[i][r]` after a run: the number of trials in which
contestant `i` received rank `r`.  A run is modelled by the list of its
trials' sorted `round_results` vectors. -/
def rankCount (trials : List (List (Nat × Int))) (i r : Nat) : Nat :=
  trials.countP fun t => rankOf t i == r

/-- `win_counts[i]` after a run (`rank == 0` increments the win count). -/
def winCount (trials : List (List (Nat × Int))) (i : Nat) : Nat :=
  rankCount trials i 0

/-- The rank-count vector of contestant `i` for an `n`-contestant run
(row `i` of `rank_dist_count`). -/
def rankCounts (trials : List (List (Nat × Int))) (n i : Nat) : List Nat :=
  (List.range n).map fun r => rankCount trials i r

/-- `RankAccumulator::into_rank_stats` from `utils/charts/models.rs:81-90`:
divide every rank count by the trial count. -/
def into_rank_stats (counts : List Nat) (sample_count : Nat) : List ℚ :=
  counts.map fun c : Nat => (c : ℚ) / (sample_count : ℚ)

/-- `RankStats::podium_probability` from `utils/charts/models.rs:102-104`:
the sum of the first three rank probabilities. -/
def podium_probability (probabilities : List ℚ) : ℚ :=
  (probabilities.take 3).sum

/-- `RankStats::win_probability` from `utils/charts/models.rs:98-100`. -/
def win_probability (probabilities : List ℚ) : ℚ :=
  probabilities.headD 0

/-! ## Contestant model builder (`Competitor::calculate_stats`,
`utils/competitor/model.rs:49-91` and `utils/competitor.rs:28-72`)

The input is the post-`apply_weights` list of (historical value, recency
weight) pairs; the `f32` weights are modelled as rationals. -/

/-- The fold at `utils/competitor/model.rs:58-64` computing
`(dnf_sum, total_w)`: a value's weight is added to `dnf_sum` exactly
when the value is negative; every weight is added to `total_w`. -/
def dnfFold (weighted : List (Int × ℚ)) : ℚ × ℚ :=
  weighted.foldl
    (fun acc p => if p.1 < 0 then (acc.1 + p.2, acc.2 + p.2) else (acc.1, acc.2 + p.2))
    (0, 0)

/-- `dnf_rate` as computed at `utils/competitor/model.rs:66-70`:
`dnf_sum / total_w`, or 0 when the total weight is not positive. -/
def dnf_rate (weighted : List (Int × ℚ)) : ℚ :=
  let s := dnfFold weighted
  if 0 < s.2 then s.1 / s.2 else 0

/-- `valid_times` as computed at `utils/competitor/model.rs:72-73`: the
entries kept for distribution fitting are exactly those with a strictly
positive value. -/
def valid_times (weighted : List (Int × ℚ)) : List (Int × ℚ) :=
  weighted.filter fun p => 0 < p.1

/-! ## Weighted statistics and the skew-normal fit
(`utils/competitor/statistics.rs`, older snapshot `utils/calc.rs`) -/

/-- Sum of the weights of a weighted dataset. -/
def totalWeight (data : List (Int × ℚ)) : ℚ :=
  (data.map Prod.snd).sum

/-- `calc_weighted_stats` from `utils/competitor/statistics.rs:43-73`,
returning `(mean, variance)`.  The returned `stdev` field is
`variance.sqrt()` and is only ever compared with `0.0`, which for the
square root holds exactly when the variance is `0.0`; the embedding
therefore keeps the rational variance and phrases that comparison as
`variance = 0`. -/
def calc_weighted_stats (data : List (Int × ℚ)) : ℚ × ℚ :=
  if data = [] then (0, 0)
  else if totalWeight data ≤ 0 then (0, 0)
  else
    let mean := (data.map fun p => (p.1 : ℚ) * p.2).sum / totalWeight data
    let sqDiff := (data.map fun p => p.2 * ((p.1 : ℚ) - mean) ^ 2).sum
    let variance :=
      if 1 < data.length then
        let effectiveN := (totalWeight data) ^ 2 / (data.map fun p => p.2 ^ 2).sum
        sqDiff / (totalWeight data * (effectiveN - 1) / effectiveN)
      else 0
    (mean, variance)

/-- Rust `f32::signum`: `1.0` for positive values and `+0.0`, `-1.0`
for negative values. -/
noncomputable def rustSignum (x : ℝ) : ℝ :=
  if x < 0 then -1 else 1

/-- Rust `f32::clamp(lo, hi)`. -/
noncomputable def clampR (x lo hi : ℝ) : ℝ :=
  max lo (min hi x)

/-- `MAX_SKEW_LIMIT` from `utils/competitor/statistics.rs` (the older
snapshot `utils/calc.rs` inlines `0.995` instead). -/
def MAX_SKEW_LIMIT : ℝ := 0.99527

/-- `fit_weighted_skewnorm` from `utils/competitor/statistics.rs:76-107`
(older snapshot `utils/calc.rs:31-57`), returning
`(alpha, omega, xi)`.  The degenerate branch (`stdev == 0.0`) keeps
exact rational values; the method-of-moments branch is carried out over
`ℝ`. -/
noncomputable def fit_weighted_skewnorm (data : List (Int × ℚ)) : ℝ × ℝ × ℝ :=
  let stats := calc_weighted_stats data
  let mean := stats.1
  let variance := stats.2
  if variance = 0 then (0, 1, (mean : ℝ))
  else
    let stdev : ℝ := Real.sqrt (variance : ℝ)
    let total : ℝ := (totalWeight data : ℝ)
    let weightedSkewness :=
      (data.map fun p => (p.2 : ℝ) * (((p.1 : ℝ) - (mean : ℝ)) / stdev) ^ 3).sum / total
    let maxSkew := MAX_SKEW_LIMIT *
      (Real.sqrt (4 - Real.pi) * Real.sqrt (2 / Real.pi) *
        (1 - 2 / Real.pi) ^ (-(3 : ℝ) / 2))
    let boundedSkew := clampR weightedSkewness (-maxSkew) maxSkew
    let deltaTerm := Real.pi / 2 * |boundedSkew| ^ ((2 : ℝ) / 3) /
      (|boundedSkew| ^ ((2 : ℝ) / 3) + ((4 - Real.pi) / 2) ^ ((2 : ℝ) / 3))
    let delta := rustSignum boundedSkew *
      clampR (Real.sqrt deltaTerm) (-MAX_SKEW_LIMIT) MAX_SKEW_LIMIT
    let alpha := delta / Real.sqrt (1 - delta ^ 2)
    let omega := Real.sqrt ((variance : ℝ) / (1 - 2 * delta ^ 2 / Real.pi))
    let xi := (mean : ℝ) - omega * delta * Real.sqrt (2 / Real.pi)
    (alpha, omega, xi)

/-! ## Distribution sampling (`generate_skewnorm_value`,
`utils/simulation/run.rs:60-85` and `utils/simulation.rs:32-64`) -/

/-- `CompetitorStats` from `utils/competitor/model.rs`.  The `location`
and `shape` fields are the ones the sampler tests with `is_nan()`, so
they are modelled as `Option ℝ` (`none` = NaN); the remaining fields are
plain reals. -/
structure CompetitorStats where
  location : Option ℝ
  shape : Option ℝ
  skew : ℝ
  dnf_rate : ℝ

/-- Rust `as i32` on a finite float: truncation toward zero (saturation
at the `i32` bounds is not modelled). -/
noncomputable def floatToI32 (x : ℝ) : Int :=
  if 0 ≤ x then ⌊x⌋ else -⌊-x⌋

/-- `generate_skewnorm_value` from `utils/simulation/run.rs:60-85`
(duplicated in `utils/simulation.rs:32-64`).  The random draws are
explicit parameters: `uDnf` is the uniform `[0,1)` draw of the DNF
check and `u0`, `v` are the two standard-normal draws.  The source
checks `location.is_nan() || shape.is_nan()` first, before the DNF
check and before sampling. -/
noncomputable def generate_skewnorm_value (stats : CompetitorStats) (includeDnf : Bool)
    (uDnf u0 v : ℝ) : Int :=
  match stats.location, stats.shape with
  | some xi, some omega =>
    if includeDnf ∧ uDnf < stats.dnf_rate then DNF_VALUE
    else
      let alpha := stats.skew
      let delta := alpha / Real.sqrt (1 + alpha ^ 2)
      let u1 := delta * u0 + Real.sqrt (1 - delta ^ 2) * v
      let z := if 0 ≤ u0 then u1 else -u1
      max (floatToI32 (xi + omega * z)) 1
  | _, _ => DNF_VALUE

/-! ## Histogram chart keys (`HistogramKeys`,
`utils/charts/histogram.rs:5-70` and `utils/charts.rs:26-84`) -/

/-- `PAD_AMOUNT_CS` from `utils/charts/histogram.rs`. -/
def PAD_AMOUNT_CS : Int := 20

/-- `PAD_AMOUNT_MOVES` from `utils/charts/histogram.rs`. -/
def PAD_AMOUNT_MOVES : Int := 100

/-- The increment applied by `HistogramKeys::next` to its cursor, a
function of the format flags and of `count % 100` (the cursor is always
nonnegative, where Rust `%` and Lean `%` agree). -/
def histStep (isFmc isAverage : Bool) (count : Int) : Int :=
  let decimals := count % 100
  if isFmc ∧ isAverage ∧ decimals = 0 then 33
  else if isFmc ∧ isAverage ∧ decimals = 33 then 34
  else if isFmc ∧ isAverage ∧ decimals = 67 then 33
  else if isFmc ∧ ¬isAverage then 100
  else 10

/-- The sequence produced by iterating `HistogramKeys::next` from cursor
`count`: yield the cursor and advance by `histStep` while the cursor is
at most `maxVal`. -/
def histKeysAux (isFmc isAverage : Bool) (maxVal count : Int) : List Int :=
  if maxVal < count then []
  else count :: histKeysAux isFmc isAverage maxVal (count + histStep isFmc isAverage count)
termination_by (maxVal + 1 - count).toNat
decreasing_by
  have h : 0 < histStep isFmc isAverage count := by
    cases isFmc <;> cases isAverage <;> simp [histStep] <;> split_ifs <;> norm_num
  omega

/-- `HistogramKeys::new` from `utils/charts/histogram.rs:16-43` combined
with collecting the iterator: pad the key range by `PAD_AMOUNT_MOVES`
(FMC) or `PAD_AMOUNT_CS` (otherwise) on both sides, clamp the start at
0, refuse a start value that is not aligned (`% 100 ∈ {0, 33, 67}` for
FMC, `% 10 == 0` otherwise), and generate the key sequence. -/
def histogramKeys (minVal maxVal : Int) (isFmc isAverage : Bool) : Option (List Int) :=
  let padAmount := if isFmc then PAD_AMOUNT_MOVES else PAD_AMOUNT_CS
  let startVal := max (minVal - padAmount) 0
  let decimals := startVal % 100
  let isValid : Bool :=
    if isFmc then decimals == 0 || decimals == 33 || decimals == 67
    else startVal % 10 == 0
  if isValid then some (histKeysAux isFmc isAverage (maxVal + padAmount) startVal)
  else none

/-- The alignment invariant of chart bucket keys, by format: non-FMC
keys are multiples of 10 (`truncate_num` truncates to a multiple of 10),
FMC single keys are multiples of 100 (`val * 100`), and FMC average keys
lie in the residues `{0, 33, 67}` modulo 100 (means of three multiples
of 100, with the `% 10 == 6` nudge). -/
def alignedKey (isFmc isAverage : Bool) (v : Int) : Prop :=
  if isFmc then
    (if isAverage then v % 100 = 0 ∨ v % 100 = 33 ∨ v % 100 = 67 else v % 100 = 0)
  else v % 10 = 0

/-! ## Chart point merging (`HistogramChartBuilder::maybe_merge_points`,
`utils/charts/builder.rs:75-101`; older snapshot `average_chunks`,
`utils/charts.rs:170-207`) -/

/-- `ChartPoint` from `utils/charts/models.rs` (`f64` values modelled as
rationals). -/
structure ChartPoint where
  name : String
  values : List ℚ
deriving DecidableEq, Repr

/-- Rust `slice::chunks(size)`: consecutive chunks of `size` elements,
the last possibly shorter.  (`chunks(0)` panics in Rust; the embedding
returns `[]`, and every use has `size ≥ 2`.) -/
def chunksOf (size : Nat) (l : List α) : List (List α) :=
  match size, l with
  | _, [] => []
  | 0, _ :: _ => []
  | s + 1, x :: xs => ((x :: xs).take (s + 1)) :: chunksOf (s + 1) ((x :: xs).drop (s + 1))
termination_by l.length
decreasing_by
  simp only [List.length_drop, List.length_cons]
  omega

/-- The per-chunk merge of `maybe_merge_points`: the merged point keeps
the first chunk member's label, and each series' value is the arithmetic
mean of that series' values over the chunk (`sums[i] / chunk.len()`). -/
def chunkMerge (numSeries : Nat) (chunk : List ChartPoint) : ChartPoint :=
  { name := (chunk.headD { name := "", values := [] }).name
    values := (List.range numSeries).map fun i =>
      (chunk.map fun p => p.values.getD i 0).sum / (chunk.length : ℚ) }

/-- `HistogramChartBuilder::maybe_merge_points` from
`utils/charts/builder.rs:75-101`.  The source computes
`(len as f64).log2().ceil() as i32`; for every positive list length this
equals `Nat.clog 2 len` (the binary logarithm of a power of two is exact
in `f64`, and a non-power-of-two's logarithm is far enough from an
integer). -/
def maybe_merge_points (points : List ChartPoint) (numSeries : Nat) : List ChartPoint :=
  if points = [] then points
  else
    let logLen := Nat.clog 2 points.length
    if logLen ≤ 8 then points
    else
      let mergeFactor := 2 ^ (logLen - 8)
      (chunksOf mergeFactor points).map (chunkMerge numSeries)

/-! ## Theorems -/

/-- Helper: a list of length 5 is an explicit five-element list. -/
theorem exists_five {α : Type} (l : List α) (h : l.length = 5) :
    ∃ a b c d e : α, l = [a, b, c, d, e] :=
  match l, h with
  | [a, b, c, d, e], _ => ⟨a, b, c, d, e, rfl⟩
  | [], h => by simp at h
  | [_], h => by simp at h
  | [_, _], h => by simp at h
  | [_, _, _], h => by simp at h
  | [_, _, _, _], h => by simp at h
  | _ :: _ :: _ :: _ :: _ :: _ :: _, h => by simp [List.length_cons] at h

/-- C1, counterexample to the claim as stated: with only 2 of the 5
solves equal to the DNF sentinel the computed `Ao5` round result is
already DNF, so "DNF iff at least 3 of the 5 solves are DNF" is false
(the sorted array `[1, 1, 1, DNF, DNF]` has a DNF at index 3). -/
theorem ao5_claim_counterexample :
    calculate_average [1, 1, 1, DNF_VALUE, DNF_VALUE] .Ao5 = DNF_VALUE
    ∧ List.count DNF_VALUE [1, 1, 1, DNF_VALUE, DNF_VALUE] = 2 := by decide

/-- C1 (amended): for every array of 5 solve values (each a result
between 0 and the DNF sentinel), the `AverageOf5` round result is DNF
if and only if at least 2 of the 5 solves are DNF; equivalently, the
result is DNF exactly when the 4th-smallest element (index 3 after
sorting ascending) is a DNF, and otherwise it is the integer-truncated
mean of the sorted elements at indices 1, 2, 3. -/
theorem ao5_average_rule (solves : List Int) (h5 : solves.length = 5)
    (hb : ∀ x ∈ solves, 0 ≤ x ∧ x ≤ DNF_VALUE) :
    (calculate_average solves .Ao5 = DNF_VALUE ↔ 2 ≤ solves.count DNF_VALUE)
    ∧ (calculate_average solves .Ao5 = DNF_VALUE ↔
        (solves.insertionSort (· ≤ ·)).getD 3 0 = DNF_VALUE)
    ∧ (calculate_average solves .Ao5 ≠ DNF_VALUE →
        calculate_average solves .Ao5 =
          Int.tdiv ((solves.insertionSort (· ≤ ·)).getD 1 0
            + (solves.insertionSort (· ≤ ·)).getD 2 0
            + (solves.insertionSort (· ≤ ·)).getD 3 0) 3) := by
  have hperm : (solves.insertionSort (· ≤ ·)).Perm solves := List.perm_insertionSort _ _
  have hsort : (solves.insertionSort (· ≤ ·)).Sorted (· ≤ ·) := List.sorted_insertionSort _ _
  have hlen : (solves.insertionSort (· ≤ ·)).length = 5 := hperm.length_eq.trans h5
  obtain ⟨a, b, c, d, e, hs⟩ := exists_five _ hlen
  rw [hs] at hsort
  simp only [List.sorted_cons, List.mem_cons] at hsort
  obtain ⟨ha1, hb1, hc1, hd1, -, -⟩ := hsort
  have hab : a ≤ b := ha1 b (Or.inl rfl)
  have hbc : b ≤ c := hb1 c (Or.inl rfl)
  have hcd : c ≤ d := hc1 d (Or.inl rfl)
  have hde : d ≤ e := hd1 e (Or.inl rfl)
  have hbs : ∀ x ∈ [a, b, c, d, e], 0 ≤ x ∧ x ≤ DNF_VALUE := by
    intro x hx
    exact hb x (hperm.mem_iff.mp (hs ▸ hx))
  obtain ⟨ha0, haD⟩ := hbs a (by simp)
  obtain ⟨hb0, hbD⟩ := hbs b (by simp)
  obtain ⟨hc0, hcD⟩ := hbs c (by simp)
  obtain ⟨hd0, hdD⟩ := hbs d (by simp)
  obtain ⟨he0, heD⟩ := hbs e (by simp)
  have hcnt : solves.count DNF_VALUE = List.count DNF_VALUE [a, b, c, d, e] := by
    rw [← hs]
    exact (hperm.count_eq DNF_VALUE).symm
  have hca : calculate_average solves .Ao5 =
      if DNF_VALUE ≤ d then DNF_VALUE else Int.tdiv (b + c + d) 3 := by
    simp only [calculate_average, hs]
    simp [List.getD]
  have hcount_iff : 2 ≤ solves.count DNF_VALUE ↔ DNF_VALUE ≤ d := by
    rw [hcnt]
    constructor
    · intro h2
      by_contra hlt
      push_neg at hlt
      have hna : a ≠ DNF_VALUE := by omega
      have hnb : b ≠ DNF_VALUE := by omega
      have hnc : c ≠ DNF_VALUE := by omega
      have hnd : d ≠ DNF_VALUE := by omega
      rw [List.count_cons, List.count_cons, List.count_cons, List.count_cons,
        List.count_cons, List.count_nil] at h2
      simp only [beq_iff_eq, hna, hnb, hnc, hnd, if_false] at h2
      by_cases hne : e = DNF_VALUE <;> simp [hne] at h2
    · intro hDd
      have hdd : d = DNF_VALUE := le_antisymm hdD hDd
      have hee : e = DNF_VALUE := le_antisymm heD (le_trans hDd hde)
      rw [List.count_cons, List.count_cons, List.count_cons, List.count_cons,
        List.count_cons, List.count_nil]
      simp only [hdd, hee, beq_self_eq_true, if_true, beq_iff_eq]
      omega
  by_cases hdnf : DNF_VALUE ≤ d
  · rw [hca, if_pos hdnf]
    have hgd : (solves.insertionSort (· ≤ ·)).getD 3 0 = DNF_VALUE := by
      rw [hs]
      simp [List.getD]
      omega
    exact ⟨⟨fun _ => hcount_iff.mpr hdnf, fun _ => rfl⟩,
      ⟨fun _ => hgd, fun _ => rfl⟩, fun hne => absurd rfl hne⟩
  · rw [hca, if_neg hdnf]
    push_neg at hdnf
    have hsum : Int.tdiv (b + c + d) 3 = (b + c + d) / 3 :=
      Int.tdiv_eq_ediv (by omega) (by norm_num)
    have hne : Int.tdiv (b + c + d) 3 ≠ DNF_VALUE := by
      rw [hsum]
      simp only [DNF_VALUE] at *
      omega
    have hgd : (solves.insertionSort (· ≤ ·)).getD 3 0 ≠ DNF_VALUE := by
      rw [hs]
      simp [List.getD]
      omega
    refine ⟨⟨fun h => absurd h hne, fun h2 => absurd (hcount_iff.mp h2) (by omega)⟩,
      ⟨fun h => absurd h hne, fun h3 => absurd h3 hgd⟩, fun _ => ?_⟩
    rw [hs]
    simp [List.getD]

/-- C1, witness: the amended rule applied to the concrete round
`[100, 200, 300, 400, DNF]`. -/
theorem ao5_average_rule_witness :
    (calculate_average [100, 200, 300, 400, DNF_VALUE] .Ao5 = DNF_VALUE ↔
      2 ≤ List.count DNF_VALUE [100, 200, 300, 400, DNF_VALUE])
    ∧ (calculate_average [100, 200, 300, 400, DNF_VALUE] .Ao5 = DNF_VALUE ↔
        (List.insertionSort (· ≤ ·) [100, 200, 300, 400, DNF_VALUE]).getD 3 0 = DNF_VALUE)
    ∧ (calculate_average [100, 200, 300, 400, DNF_VALUE] .Ao5 ≠ DNF_VALUE →
        calculate_average [100, 200, 300, 400, DNF_VALUE] .Ao5 =
          Int.tdiv ((List.insertionSort (· ≤ ·) [100, 200, 300, 400, DNF_VALUE]).getD 1 0
            + (List.insertionSort (· ≤ ·) [100, 200, 300, 400, DNF_VALUE]).getD 2 0
            + (List.insertionSort (· ≤ ·) [100, 200, 300, 400, DNF_VALUE]).getD 3 0) 3) :=
  ao5_average_rule [100, 200, 300, 400, DNF_VALUE] (by rfl) (by decide)

/-- C2, counterexample to the claim as stated: the FMC scoring of the
all-non-DNF round `[26, 26, 26]` returns 27, one more than the
integer-truncated mean 26, although the truncated mean's last two
digits are 26 and not 66 (the code tests `avg % 10 == 6`, not
`avg % 100 == 66`). -/
theorem fmc_claim_counterexample :
    calculate_average [26, 26, 26, DNF_VALUE, DNF_VALUE] .Fmc = 27
    ∧ Int.tdiv (26 + 26 + 26) 3 = 26
    ∧ Int.tmod 26 100 ≠ 66 := by decide

/-- C2 (amended): for every FMC round whose 3 counting solves are all
non-DNF, the scoring function returns the integer-truncated mean plus 1
when the truncated mean's last digit is 6 (`avg % 10 == 6`), and the
truncated mean unchanged otherwise; when the solves are nonnegative
multiples of 100 (as produced by the simulator's `val * 100` scaling)
the last digit being 6 coincides with the last two digits being 66. -/
theorem fmc_mean_rule (a b c : Int) (rest : List Int)
    (ha : a < DNF_VALUE) (hb : b < DNF_VALUE) (hc : c < DNF_VALUE) :
    (calculate_average (a :: b :: c :: rest) .Fmc =
      if Int.tmod (Int.tdiv (a + b + c) 3) 10 = 6
      then Int.tdiv (a + b + c) 3 + 1 else Int.tdiv (a + b + c) 3)
    ∧ (0 ≤ a → 0 ≤ b → 0 ≤ c → a % 100 = 0 → b % 100 = 0 → c % 100 = 0 →
        (Int.tmod (Int.tdiv (a + b + c) 3) 10 = 6 ↔
         Int.tmod (Int.tdiv (a + b + c) 3) 100 = 66)) := by
  constructor
  · simp only [calculate_average, mo3_score, List.take_succ_cons, List.take_zero]
    have hany : ([a, b, c].any fun x => decide (DNF_VALUE ≤ x)) = false := by
      simp only [List.any_cons, List.any_nil, Bool.or_false, Bool.or_eq_false_iff,
        decide_eq_false_iff_not, not_le]
      exact ⟨ha, hb, hc⟩
    rw [hany]
    simp [List.sum_cons, List.sum_nil, add_zero, add_assoc]
  · intro ha0 hb0 hc0 ha100 hb100 hc100
    have hsum0 : 0 ≤ a + b + c := by omega
    have hdiv : Int.tdiv (a + b + c) 3 = (a + b + c) / 3 :=
      Int.tdiv_eq_ediv hsum0 (by norm_num)
    have hq0 : 0 ≤ (a + b + c) / 3 := Int.ediv_nonneg hsum0 (by norm_num)
    rw [hdiv, Int.tmod_eq_emod hq0 (by norm_num), Int.tmod_eq_emod hq0 (by norm_num)]
    omega

/-- C2, witness: the amended rule applied to the concrete FMC round
`[2000, 2100, 2200]` (20, 21, 22 moves). -/
theorem fmc_mean_rule_witness :
    (calculate_average (2000 :: 2100 :: 2200 :: [DNF_VALUE, DNF_VALUE]) .Fmc =
      if Int.tmod (Int.tdiv (2000 + 2100 + 2200) 3) 10 = 6
      then Int.tdiv (2000 + 2100 + 2200) 3 + 1 else Int.tdiv (2000 + 2100 + 2200) 3)
    ∧ (0 ≤ (2000 : Int) → 0 ≤ (2100 : Int) → 0 ≤ (2200 : Int) →
        (2000 : Int) % 100 = 0 → (2100 : Int) % 100 = 0 → (2200 : Int) % 100 = 0 →
        (Int.tmod (Int.tdiv (2000 + 2100 + 2200) 3) 10 = 6 ↔
         Int.tmod (Int.tdiv (2000 + 2100 + 2200) 3) 100 = 66)) :=
  fmc_mean_rule 2000 2100 2200 [DNF_VALUE, DNF_VALUE] (by decide) (by decide) (by decide)

/-- C3, counterexample to the claim as stated: the code sorts the
per-trial `(index, result)` pairs with `sort_unstable_by_key` keyed only
on the result, which guarantees no tie order.  The output
`[(1, 100), (0, 100)]` satisfies that contract for the roster-ordered
input `[(0, 100), (1, 100)]`, yet it gives rank 1 to contestant 0, who
is earlier in the roster and tied with contestant 1 — so "ties broken by
original roster order (a stable sort)" does not hold for every
admissible outcome. -/
theorem rank_tie_counterexample :
    IsSortedRoundResults [(1, 100), (0, 100)] [(0, 100), (1, 100)]
    ∧ rankOf [(1, 100), (0, 100)] 0 = 1
    ∧ rankOf [(1, 100), (0, 100)] 1 = 0 :=
  ⟨⟨by decide, by decide⟩, by decide, by decide⟩

/-- Helper for C3: with pairwise-distinct roster indices, the pair of a
contestant sits exactly at that contestant's rank in the sorted round
results. -/
theorem rankOf_get (output : List (Nat × Int)) (hnd : (output.map Prod.fst).Nodup)
    (i : Nat) (r : Int) (hmem : (i, r) ∈ output) :
    ∃ hlt : rankOf output i < output.length,
      output.get ⟨rankOf output i, hlt⟩ = (i, r) := by
  have hex : ∃ x ∈ output, (fun p => p.1 == i) x = true := ⟨(i, r), hmem, by simp⟩
  have hlt : rankOf output i < output.length := List.findIdx_lt_length_of_exists hex
  refine ⟨hlt, ?_⟩
  have hp : (output.get ⟨rankOf output i, hlt⟩).1 = i := by
    have h2 := @List.findIdx_getElem _ (fun p => p.1 == i) output
      (by simpa [rankOf] using hlt)
    simpa [rankOf, List.get_eq_getElem] using h2
  obtain ⟨m, hm⟩ := List.get_of_mem hmem
  have hfst1 : (output.map Prod.fst).get ⟨rankOf output i, by simpa using hlt⟩ = i := by
    simpa [List.get_eq_getElem, List.getElem_map] using hp
  have hfst2 : (output.map Prod.fst).get ⟨(m : Nat), by simpa using m.isLt⟩ = i := by
    have hval : (output.get m).1 = i := by rw [hm]
    simpa [List.get_eq_getElem, List.getElem_map] using hval
  have heq : rankOf output i = (m : Nat) := by
    have h3 := (List.Nodup.get_inj_iff hnd).mp (hfst1.trans hfst2.symm)
    simpa using congrArg Fin.val h3
  rw [← hm]
  congr 1
  exact Fin.ext heq

/-- C3 (amended): contestants are ranked by sorting their round results
ascending; whenever one contestant's round result is strictly smaller
than another's, the former receives the strictly smaller rank.  The
relative order of contestants with equal round results is not
specified (the code uses an unstable sort keyed only on the result). -/
theorem rank_strict_order (input output : List (Nat × Int))
    (h : IsSortedRoundResults output input)
    (hnd : (input.map Prod.fst).Nodup)
    (i j : Nat) (ri rj : Int)
    (hi : (i, ri) ∈ input) (hj : (j, rj) ∈ input)
    (hlt : ri < rj) :
    rankOf output i < rankOf output j := by
  obtain ⟨hperm, hsort⟩ := h
  have hndo : (output.map Prod.fst).Nodup := ((hperm.map Prod.fst).nodup_iff).mpr hnd
  obtain ⟨hpi, hgi⟩ := rankOf_get output hndo i ri (hperm.mem_iff.mpr hi)
  obtain ⟨hpj, hgj⟩ := rankOf_get output hndo j rj (hperm.mem_iff.mpr hj)
  by_contra hge
  push_neg at hge
  rcases lt_or_eq_of_le hge with hjlt | hjeq
  · have hpw := (List.pairwise_iff_get.mp hsort) ⟨rankOf output j, hpj⟩ ⟨rankOf output i, hpi⟩ hjlt
    rw [hgi, hgj] at hpw
    simp at hpw
    omega
  · have hsame : (i, ri) = (j, rj) := by
      rw [← hgi, ← hgj]
      congr 1
      exact Fin.ext hjeq.symm
    simp at hsame
    omega

/-- C3, witness: the amended rule applied to the sorted round results
`[(0, 5), (1, 7)]` of the roster `[(0, 5), (1, 7)]`. -/
theorem rank_strict_order_witness :
    rankOf [(0, 5), (1, 7)] 0 < rankOf [(0, 5), (1, 7)] 1 :=
  rank_strict_order [(0, 5), (1, 7)] [(0, 5), (1, 7)]
    ⟨by decide, by decide⟩ (by decide) 0 1 5 7 (by decide) (by decide) (by decide)

/-- Helper for C4: the `(dnf_sum, total_w)` fold equals the weight sum
over negative-valued entries paired with the weight sum over all
entries. -/
theorem dnfFold_aux (weighted : List (Int × ℚ)) : ∀ a b : ℚ,
    weighted.foldl
      (fun acc p => if p.1 < 0 then (acc.1 + p.2, acc.2 + p.2) else (acc.1, acc.2 + p.2))
      (a, b)
    = (a + ((weighted.filter fun p => p.1 < 0).map Prod.snd).sum,
       b + (weighted.map Prod.snd).sum) := by
  induction weighted with
  | nil => intro a b; simp
  | cons x xs ih =>
    intro a b
    by_cases hx : x.1 < 0
    · simp only [List.foldl_cons, if_pos hx, ih, List.filter_cons, hx]
      simp [Prod.ext_iff]
      constructor <;> ring
    · simp only [List.foldl_cons, if_neg hx, ih, List.filter_cons, hx]
      simp [Prod.ext_iff]
      ring

/-- Helper for C4: closed form of `dnfFold`. -/
theorem dnfFold_eq (weighted : List (Int × ℚ)) :
    dnfFold weighted = (((weighted.filter fun p => p.1 < 0).map Prod.snd).sum,
      (weighted.map Prod.snd).sum) := by
  have h := dnfFold_aux weighted 0 0
  simpa [dnfFold] using h

/-- C4, counterexample to the claim as stated: a single historical
result equal to the DNF sentinel (`60 * 60 * 100 + 1`, a positive
value) with weight 1 yields `dnf_rate = 0`, not the claimed
`1 / 1 = 1`, and the sentinel entry is kept in the valid set used for
fitting — the code's DNF test is `val < 0` only. -/
theorem dnf_rate_counterexample :
    dnf_rate [(DNF_VALUE, 1)] = 0
    ∧ valid_times [(DNF_VALUE, 1)] = [(DNF_VALUE, 1)]
    ∧ (1 : ℚ) ≠ 0 := by
  refine ⟨?_, by norm_num [valid_times, DNF_VALUE], by norm_num⟩
  rw [dnf_rate, dnfFold_eq]
  norm_num [DNF_VALUE]

/-- C4 (amended): for every contestant input with positive total
recency weight, `dnf_rate` equals the sum of weights of results marked
DNF — where a DNF marker is a negative value only — divided by the sum
of weights of all results, and the valid set kept for fitting consists
exactly of the entries with strictly positive value; in particular a
historical result equal to the DNF sentinel contributes its weight to
the valid set, not to the DNF numerator. -/
theorem dnf_rate_negative_only (weighted : List (Int × ℚ))
    (hw : 0 < (weighted.map Prod.snd).sum) :
    dnf_rate weighted
      = ((weighted.filter fun p => p.1 < 0).map Prod.snd).sum / (weighted.map Prod.snd).sum
    ∧ valid_times weighted = weighted.filter fun p => 0 < p.1 := by
  refine ⟨?_, rfl⟩
  rw [dnf_rate, dnfFold_eq]
  simp only []
  rw [if_pos hw]

/-- C4, witness: the amended rule applied to the concrete weighted data
`[(-1, 1), (100, 1)]` (one DNF marker, one valid result, equal
weights). -/
theorem dnf_rate_negative_only_witness :
    dnf_rate [(-1, 1), (100, 1)] = ((([((-1 : Int), (1 : ℚ)), (100, 1)]).filter
      fun p => p.1 < 0).map Prod.snd).sum / (([((-1 : Int), (1 : ℚ)), (100, 1)]).map Prod.snd).sum
    ∧ valid_times [(-1, 1), (100, 1)] = ([((-1 : Int), (1 : ℚ)), (100, 1)]).filter
        fun p => 0 < p.1 :=
  dnf_rate_negative_only [(-1, 1), (100, 1)] (by norm_num)

/-- Helper: the sum of a map over `List.range` as a `Finset.range`
sum. -/
theorem list_range_map_sum {M : Type} [AddCommMonoid M] (n : Nat) (f : Nat → M) :
    ((List.range n).map f).sum = ∑ r ∈ Finset.range n, f r := by
  induction n with
  | zero => simp
  | succ m ih =>
    rw [List.range_succ, List.map_append, List.sum_append, Finset.sum_range_succ, ih]
    simp

/-- Helper for C6/C10: in a trial whose roster indices are a permutation
of `0..n-1`, every contestant receives a rank below the trial length. -/
theorem rankOf_lt (t : List (Nat × Int)) (n i : Nat)
    (ht : (t.map Prod.fst).Perm (List.range n)) (hi : i < n) :
    rankOf t i < t.length := by
  have himem : i ∈ t.map Prod.fst := ht.mem_iff.mpr (List.mem_range.mpr hi)
  obtain ⟨p, hp, hfst⟩ := List.mem_map.mp himem
  exact List.findIdx_lt_length_of_exists ⟨p, hp, by simp [hfst]⟩

/-- Helper for C6/C10: every trial contributes exactly one rank per
contestant, so the rank counts of one contestant sum to the trial
count. -/
theorem sum_rankCount (trials : List (List (Nat × Int))) (n i : Nat)
    (ht : ∀ t ∈ trials, (t.map Prod.fst).Perm (List.range n)) (hi : i < n) :
    ∑ r ∈ Finset.range n, rankCount trials i r = trials.length := by
  induction trials with
  | nil => simp [rankCount]
  | cons t ts ih =>
    have htt := ht t (List.mem_cons_self t ts)
    have hts : ∀ u ∈ ts, (u.map Prod.fst).Perm (List.range n) :=
      fun u hu => ht u (List.mem_cons_of_mem t hu)
    have hr : rankOf t i < n := by
      have hlt := rankOf_lt t n i htt hi
      have hlen : t.length = n := by
        have hle := htt.length_eq
        simpa using hle
      omega
    have hstep : ∀ r, rankCount (t :: ts) i r
        = rankCount ts i r + if rankOf t i = r then 1 else 0 := by
      intro r
      simp [rankCount, List.countP_cons]
    calc ∑ r ∈ Finset.range n, rankCount (t :: ts) i r
        = ∑ r ∈ Finset.range n, (rankCount ts i r + if rankOf t i = r then 1 else 0) :=
          Finset.sum_congr rfl fun r _ => hstep r
      _ = (∑ r ∈ Finset.range n, rankCount ts i r)
          + ∑ r ∈ Finset.range n, (if rankOf t i = r then 1 else 0) := Finset.sum_add_distrib
      _ = ts.length + 1 := by
          rw [ih hts, Finset.sum_ite_eq (Finset.range n) (rankOf t i) fun _ => 1,
            if_pos (Finset.mem_range.mpr hr)]
      _ = (t :: ts).length := by simp

/-- Helper for C6: rank 0 belongs to the head of the sorted round
results. -/
theorem rankOf_cons_zero_iff (x : Nat × Int) (ts : List (Nat × Int)) (i : Nat) :
    rankOf (x :: ts) i = 0 ↔ x.1 = i := by
  rw [rankOf, List.findIdx_cons]
  by_cases hx : x.1 = i
  · simp [hx]
  · have hbe : (x.1 == i) = false := beq_false_of_ne hx
    simp [hbe, hx]

/-- Helper for C6: every trial has exactly one contestant at rank 0. -/
theorem sum_winner_indicator (t : List (Nat × Int)) (n : Nat) (hn : 1 ≤ n)
    (ht : (t.map Prod.fst).Perm (List.range n)) :
    ∑ i ∈ Finset.range n, (if rankOf t i = 0 then 1 else 0) = 1 := by
  have hlen : t.length = n := by
    have hle := ht.length_eq
    simpa using hle
  match t, hlen with
  | x :: ts, hlen =>
    have hx : x.1 ∈ Finset.range n :=
      Finset.mem_range.mpr (List.mem_range.mp (ht.mem_iff.mp (by simp)))
    have hcond : ∀ i, (rankOf (x :: ts) i = 0) = (x.1 = i) := by
      intro i
      exact propext (rankOf_cons_zero_iff x ts i)
    calc ∑ i ∈ Finset.range n, (if rankOf (x :: ts) i = 0 then 1 else 0)
        = ∑ i ∈ Finset.range n, (if x.1 = i then 1 else 0) :=
          Finset.sum_congr rfl fun i _ => by simp only [hcond]
      _ = 1 := by
          rw [Finset.sum_ite_eq (Finset.range n) x.1 fun _ => 1, if_pos hx]
  | [], hlen => simp at hlen; omega

/-- Helper for C6: the win counts over all contestants sum to the trial
count. -/
theorem sum_winCount (trials : List (List (Nat × Int))) (n : Nat) (hn : 1 ≤ n)
    (ht : ∀ t ∈ trials, (t.map Prod.fst).Perm (List.range n)) :
    ∑ i ∈ Finset.range n, winCount trials i = trials.length := by
  induction trials with
  | nil => simp [winCount, rankCount]
  | cons t ts ih =>
    have htt := ht t (List.mem_cons_self t ts)
    have hts : ∀ u ∈ ts, (u.map Prod.fst).Perm (List.range n) :=
      fun u hu => ht u (List.mem_cons_of_mem t hu)
    have hstep : ∀ i, winCount (t :: ts) i
        = winCount ts i + if rankOf t i = 0 then 1 else 0 := by
      intro i
      simp [winCount, rankCount, List.countP_cons]
    calc ∑ i ∈ Finset.range n, winCount (t :: ts) i
        = ∑ i ∈ Finset.range n, (winCount ts i + if rankOf t i = 0 then 1 else 0) :=
          Finset.sum_congr rfl fun i _ => hstep i
      _ = (∑ i ∈ Finset.range n, winCount ts i)
          + ∑ i ∈ Finset.range n, (if rankOf t i = 0 then 1 else 0) := Finset.sum_add_distrib
      _ = ts.length + 1 := by rw [ih hts, sum_winner_indicator t n hn htt]
      _ = (t :: ts).length := by simp

/-- Helper for C6/C10: the normalized rank-distribution vector of any
contestant sums to exactly 1. -/
theorem into_rank_stats_sum (trials : List (List (Nat × Int))) (n i : Nat)
    (hN : 1 ≤ trials.length)
    (ht : ∀ t ∈ trials, (t.map Prod.fst).Perm (List.range n)) (hi : i < n) :
    (into_rank_stats (rankCounts trials n i) trials.length).sum = 1 := by
  have h1 : into_rank_stats (rankCounts trials n i) trials.length
      = (List.range n).map fun r => (rankCount trials i r : ℚ) / (trials.length : ℚ) := by
    simp [into_rank_stats, rankCounts, List.map_map, Function.comp]
  rw [h1, list_range_map_sum n _, ← Finset.sum_div]
  rw [show (∑ r ∈ Finset.range n, (rankCount trials i r : ℚ))
      = ((∑ r ∈ Finset.range n, rankCount trials i r : Nat) : ℚ) by push_cast; ring]
  rw [sum_rankCount trials n i ht hi]
  have hne : (trials.length : ℚ) ≠ 0 := by
    have hpos : (0 : ℚ) < trials.length := by exact_mod_cast hN
    exact ne_of_gt hpos
  field_simp

/-- Helper for C6: the code's `win_probability` accessor (first rank
probability) equals the win count divided by the trial count. -/
theorem win_probability_eq (trials : List (List (Nat × Int))) (n i : Nat) (hn : 1 ≤ n) :
    win_probability (into_rank_stats (rankCounts trials n i) trials.length)
      = (winCount trials i : ℚ) / (trials.length : ℚ) := by
  match n, hn with
  | m + 1, _ =>
    rw [rankCounts, List.range_succ_eq_map]
    simp [into_rank_stats, win_probability, winCount]

/-- C6: for every roster of `n ≥ 1` contestants and every run of
`N ≥ 1` trials (each trial assigning the contestants `0..n-1` the ranks
`0..n-1` by its sorted round results), every contestant's
rank-distribution vector (rank counts divided by `N`) sums to exactly
1, and the win chances summed over all contestants equal exactly 1 —
each trial gives every contestant exactly one rank and rank 0 to
exactly one contestant. -/
theorem rank_dist_win_sums (n : Nat) (trials : List (List (Nat × Int)))
    (hn : 1 ≤ n) (hN : 1 ≤ trials.length)
    (ht : ∀ t ∈ trials, (t.map Prod.fst).Perm (List.range n)) :
    (∀ i < n, (into_rank_stats (rankCounts trials n i) trials.length).sum = 1)
    ∧ ((List.range n).map fun i =>
        win_probability (into_rank_stats (rankCounts trials n i) trials.length)).sum = 1 := by
  constructor
  · intro i hi
    exact into_rank_stats_sum trials n i hN ht hi
  · have h1 : ((List.range n).map fun i =>
        win_probability (into_rank_stats (rankCounts trials n i) trials.length)).sum
        = ∑ i ∈ Finset.range n, (winCount trials i : ℚ) / (trials.length : ℚ) := by
      rw [list_range_map_sum n _]
      exact Finset.sum_congr rfl fun i _ => win_probability_eq trials n i hn
    rw [h1, ← Finset.sum_div]
    rw [show (∑ i ∈ Finset.range n, (winCount trials i : ℚ))
      = ((∑ i ∈ Finset.range n, winCount trials i : Nat) : ℚ) by push_cast; ring]
    rw [sum_winCount trials n hn ht]
    have hne : (trials.length : ℚ) ≠ 0 := by
      have hpos : (0 : ℚ) < trials.length := by exact_mod_cast hN
      exact ne_of_gt hpos
    field_simp

/-- C6, witness: a single-contestant roster and a single trial. -/
theorem rank_dist_win_sums_witness :
    (into_rank_stats (rankCounts [[((0 : Nat), (42 : Int))]] 1 0) 1).sum = 1
    ∧ ((List.range 1).map fun i =>
        win_probability (into_rank_stats (rankCounts [[((0 : Nat), (42 : Int))]] 1 i) 1)).sum
        = 1 :=
  ⟨(rank_dist_win_sums 1 [[(0, 42)]] (by norm_num) (by norm_num) (by decide)).1 0 (by norm_num),
   (rank_dist_win_sums 1 [[(0, 42)]] (by norm_num) (by norm_num) (by decide)).2⟩

/-- C10: for every roster of at most 3 contestants (and at least one)
and every run of `N ≥ 1` trials, every contestant's podium probability
(the sum of the first three rank probabilities) equals exactly 1: each
trial assigns every contestant a rank strictly below 3. -/
theorem podium_probability_small_roster (n : Nat) (trials : List (List (Nat × Int)))
    (hn : 1 ≤ n) (hn3 : n ≤ 3) (hN : 1 ≤ trials.length)
    (ht : ∀ t ∈ trials, (t.map Prod.fst).Perm (List.range n)) :
    ∀ i < n, podium_probability (into_rank_stats (rankCounts trials n i) trials.length) = 1 := by
  intro i hi
  rw [podium_probability]
  have hlen : (into_rank_stats (rankCounts trials n i) trials.length).length = n := by
    simp [into_rank_stats, rankCounts]
  rw [List.take_of_length_le (by omega)]
  exact into_rank_stats_sum trials n i hN ht hi

/-- C10, witness: a two-contestant roster and a single trial. -/
theorem podium_probability_small_roster_witness :
    podium_probability
      (into_rank_stats (rankCounts [[((0 : Nat), (5 : Int)), (1, 7)]] 2 0) 1) = 1 :=
  podium_probability_small_roster 2 [[(0, 5), (1, 7)]]
    (by norm_num) (by norm_num) (by norm_num) (by decide) 0 (by norm_num)

/-- Helper for C5: the iterator's step is always positive. -/
theorem histStep_pos (isFmc isAverage : Bool) (count : Int) :
    0 < histStep isFmc isAverage count := by
  cases isFmc <;> cases isAverage <;> simp [histStep] <;> split_ifs <;> norm_num

/-- C5, counterexample to the claim as stated: for the non-move-count
key range `[100, 130]` (the repository's own unit test) the generated
sequence is `[80, ..., 150]`: it starts 20 units (two bucket-steps of
10) below the minimum, not one bucket-step — `100 - 10 = 90 ≠ 80`. -/
theorem histogram_keys_counterexample :
    histogramKeys 100 130 false false = some [80, 90, 100, 110, 120, 130, 140, 150]
    ∧ (100 : Int) - 10 ≠ 80 := by
  constructor
  · rw [histogramKeys]
    norm_num [PAD_AMOUNT_CS]
    rw [histKeysAux]; norm_num [histStep]
    rw [histKeysAux]; norm_num [histStep]
    rw [histKeysAux]; norm_num [histStep]
    rw [histKeysAux]; norm_num [histStep]
    rw [histKeysAux]; norm_num [histStep]
    rw [histKeysAux]; norm_num [histStep]
    rw [histKeysAux]; norm_num [histStep]
    rw [histKeysAux]; norm_num [histStep]
    rw [histKeysAux]; norm_num
  · norm_num

/-- Helper for C5: each step preserves the alignment invariant. -/
theorem aligned_step (isFmc isAverage : Bool) (v : Int)
    (h : alignedKey isFmc isAverage v) :
    alignedKey isFmc isAverage (v + histStep isFmc isAverage v) := by
  cases isFmc <;> cases isAverage <;>
    simp [alignedKey, histStep] at h ⊢ <;> omega

/-- Helper for C5: no aligned key lies strictly between an aligned
cursor and its successor. -/
theorem aligned_gap (isFmc isAverage : Bool) (v m : Int)
    (hv : alignedKey isFmc isAverage v) (hm : alignedKey isFmc isAverage m)
    (hlt : v < m) : v + histStep isFmc isAverage v ≤ m := by
  cases isFmc <;> cases isAverage <;>
    simp [alignedKey, histStep] at hv hm ⊢ <;> omega

/-- Helper for C5: every generated key is at least the starting
cursor. -/
theorem histKeysAux_mem_ge (isFmc isAverage : Bool) (maxVal count : Int) :
    ∀ x ∈ histKeysAux isFmc isAverage maxVal count, count ≤ x := by
  intro x hx
  rw [histKeysAux] at hx
  by_cases hgt : maxVal < count
  · rw [if_pos hgt] at hx
    simp at hx
  · rw [if_neg hgt] at hx
    rcases List.mem_cons.mp hx with hx0 | hxr
    · omega
    · have hrec := histKeysAux_mem_ge isFmc isAverage maxVal
        (count + histStep isFmc isAverage count) x hxr
      have hp := histStep_pos isFmc isAverage count
      omega
termination_by (maxVal + 1 - count).toNat
decreasing_by
  have h := histStep_pos isFmc isAverage count
  omega

/-- Helper for C5: the generated key sequence is strictly increasing. -/
theorem histKeysAux_sorted (isFmc isAverage : Bool) (maxVal count : Int) :
    (histKeysAux isFmc isAverage maxVal count).Sorted (· < ·) := by
  rw [histKeysAux]
  by_cases hgt : maxVal < count
  · rw [if_pos hgt]
    simp
  · rw [if_neg hgt]
    rw [List.sorted_cons]
    constructor
    · intro x hx
      have hge := histKeysAux_mem_ge isFmc isAverage maxVal
        (count + histStep isFmc isAverage count) x hx
      have hp := histStep_pos isFmc isAverage count
      omega
    · exact histKeysAux_sorted isFmc isAverage maxVal (count + histStep isFmc isAverage count)
termination_by (maxVal + 1 - count).toNat
decreasing_by
  have h := histStep_pos isFmc isAverage count
  omega

/-- Helper: `getLast?` skips the head of a list with a nonempty
tail. -/
theorem getLast?_cons_ne {α : Type} (x : α) (l : List α) (h : l ≠ []) :
    (x :: l).getLast? = l.getLast? := by
  cases l with
  | nil => exact absurd rfl h
  | cons y ys => exact List.getLast?_cons_cons

/-- Helper for C5: from an aligned cursor not above an aligned bound,
the iteration ends exactly at the bound. -/
theorem histKeysAux_getLast (isFmc isAverage : Bool) (maxVal count : Int)
    (hle : count ≤ maxVal) (hc : alignedKey isFmc isAverage count)
    (hm : alignedKey isFmc isAverage maxVal) :
    (histKeysAux isFmc isAverage maxVal count).getLast? = some maxVal := by
  rw [histKeysAux, if_neg (by omega)]
  by_cases hnext : maxVal < count + histStep isFmc isAverage count
  · have heqm : count = maxVal := by
      rcases lt_or_eq_of_le hle with hlt | heq
      · have hgap := aligned_gap isFmc isAverage count maxVal hc hm hlt
        omega
      · exact heq
    rw [histKeysAux, if_pos (by omega)]
    simp [heqm]
  · push_neg at hnext
    have hne : histKeysAux isFmc isAverage maxVal (count + histStep isFmc isAverage count)
        ≠ [] := by
      rw [histKeysAux, if_neg (by omega)]
      simp
    rw [getLast?_cons_ne _ _ hne]
    exact histKeysAux_getLast isFmc isAverage maxVal (count + histStep isFmc isAverage count)
      hnext (aligned_step isFmc isAverage count hc) hm
termination_by (maxVal + 1 - count).toNat
decreasing_by
  have h := histStep_pos isFmc isAverage count
  omega

/-- Helper for C5: the sequence starts at the cursor. -/
theorem histKeysAux_head (isFmc isAverage : Bool) (maxVal count : Int)
    (hle : count ≤ maxVal) :
    (histKeysAux isFmc isAverage maxVal count).head? = some count := by
  rw [histKeysAux, if_neg (by omega)]
  rfl

/-- Helper for C5: the clamped, padded start value inherits the
alignment invariant. -/
theorem aligned_start (isFmc isAverage : Bool) (minVal : Int)
    (ha : alignedKey isFmc isAverage minVal) :
    alignedKey isFmc isAverage
      (max (minVal - (if isFmc then PAD_AMOUNT_MOVES else PAD_AMOUNT_CS)) 0) := by
  cases isFmc <;> cases isAverage <;>
    simp [alignedKey, PAD_AMOUNT_MOVES, PAD_AMOUNT_CS] at ha ⊢ <;> omega

/-- Helper for C5: with an aligned start value the constructor accepts
the range and returns the generated sequence. -/
theorem histogramKeys_isSome (minVal maxVal : Int) (f a : Bool)
    (hstart : alignedKey f a (max (minVal - (if f then PAD_AMOUNT_MOVES else PAD_AMOUNT_CS)) 0)) :
    histogramKeys minVal maxVal f a
      = some (histKeysAux f a (maxVal + (if f then PAD_AMOUNT_MOVES else PAD_AMOUNT_CS))
          (max (minVal - (if f then PAD_AMOUNT_MOVES else PAD_AMOUNT_CS)) 0)) := by
  cases f <;> cases a
  · simp [alignedKey] at hstart
    simp [histogramKeys, hstart]
  · simp [alignedKey] at hstart
    simp [histogramKeys, hstart]
  · simp [alignedKey] at hstart
    simp [histogramKeys, hstart]
  · simp [alignedKey] at hstart
    rcases hstart with h | h | h <;> simp [histogramKeys, h]

/-- C5 (amended): for every key range with aligned bucket keys
(`0 ≤ min ≤ max`), the shared chart key sequence exists and starts
exactly one pad amount below the overall minimum bucket key (clamped at
0) and ends exactly one pad amount above the overall maximum, where the
pad amount is 20 units — i.e. two 10-unit bucket-steps — for
non-move-count series and 100 units for move-count series (one
100-unit step for single series, three steps of the 33/34/33 pattern
for average series); the sequence is strictly increasing. -/
theorem histogram_keys_bounds (minVal maxVal : Int) (isFmc isAverage : Bool)
    (hmin0 : 0 ≤ minVal) (hminmax : minVal ≤ maxVal)
    (hamin : alignedKey isFmc isAverage minVal)
    (hamax : alignedKey isFmc isAverage maxVal) :
    ∃ keys, histogramKeys minVal maxVal isFmc isAverage = some keys
      ∧ keys.head? = some (max (minVal - (if isFmc then PAD_AMOUNT_MOVES else PAD_AMOUNT_CS)) 0)
      ∧ keys.getLast? = some (maxVal + (if isFmc then PAD_AMOUNT_MOVES else PAD_AMOUNT_CS))
      ∧ keys.Sorted (· < ·) := by
  have hpadpos : 0 < (if isFmc then PAD_AMOUNT_MOVES else PAD_AMOUNT_CS) := by
    cases isFmc <;> simp [PAD_AMOUNT_MOVES, PAD_AMOUNT_CS]
  have hastart := aligned_start isFmc isAverage minVal hamin
  have hamaxp : alignedKey isFmc isAverage
      (maxVal + (if isFmc then PAD_AMOUNT_MOVES else PAD_AMOUNT_CS)) := by
    cases isFmc <;> cases isAverage <;>
      simp [alignedKey, PAD_AMOUNT_MOVES, PAD_AMOUNT_CS] at hamax ⊢ <;> omega
  have hle : max (minVal - (if isFmc then PAD_AMOUNT_MOVES else PAD_AMOUNT_CS)) 0
      ≤ maxVal + (if isFmc then PAD_AMOUNT_MOVES else PAD_AMOUNT_CS) := by omega
  exact ⟨histKeysAux isFmc isAverage
      (maxVal + (if isFmc then PAD_AMOUNT_MOVES else PAD_AMOUNT_CS))
      (max (minVal - (if isFmc then PAD_AMOUNT_MOVES else PAD_AMOUNT_CS)) 0),
    histogramKeys_isSome minVal maxVal isFmc isAverage hastart,
    histKeysAux_head _ _ _ _ hle,
    histKeysAux_getLast _ _ _ _ hle hastart hamaxp,
    histKeysAux_sorted _ _ _ _⟩

/-- C5, witness: the amended rule applied to the non-move-count key
range `[100, 130]`. -/
theorem histogram_keys_bounds_witness :
    ∃ keys, histogramKeys 100 130 false false = some keys
      ∧ keys.head? = some (max ((100 : Int) - (if false then PAD_AMOUNT_MOVES else PAD_AMOUNT_CS)) 0)
      ∧ keys.getLast? = some ((130 : Int) + (if false then PAD_AMOUNT_MOVES else PAD_AMOUNT_CS))
      ∧ keys.Sorted (· < ·) :=
  histogram_keys_bounds 100 130 false false (by norm_num) (by norm_num)
    (by simp [alignedKey]) (by simp [alignedKey])

/-- Helper for C7: a chunked list has at most `k` chunks when the input
has at most `n * k` elements. -/
theorem chunksOf_length_le {α : Type} (n : Nat) (hn : 0 < n) :
    ∀ (k : Nat) (l : List α), l.length ≤ n * k → (chunksOf n l).length ≤ k := by
  intro k
  induction k with
  | zero =>
    intro l hl
    have hnil : l = [] := List.length_eq_zero.mp (by omega)
    subst hnil
    simp [chunksOf]
  | succ m ih =>
    intro l hl
    match l with
    | [] => simp [chunksOf]
    | x :: xs =>
      obtain ⟨s, rfl⟩ : ∃ s, n = s + 1 := ⟨n - 1, by omega⟩
      rw [chunksOf]
      simp only [List.length_cons]
      have hdrop : ((x :: xs).drop (s + 1)).length ≤ (s + 1) * m := by
        simp only [List.length_drop, List.length_cons]
        have h1 := hl
        simp only [List.length_cons] at h1
        have h2 : (s + 1) * (m + 1) = (s + 1) * m + (s + 1) := by ring
        omega
      have h3 := ih ((x :: xs).drop (s + 1)) hdrop
      omega

/-- C7: a generated chart point sequence with at most 256 points
(equivalently `ceil(log2(count)) ≤ 8`) is emitted unchanged; otherwise
adjacent points are merged in consecutive chunks of size
`2 ^ (ceil(log2(count)) - 8)`, each merged point carrying the first
chunk member's label and, per series, the arithmetic mean of the
chunk's values — and the merged output always has at most 256
points. -/
theorem maybe_merge_points_spec (points : List ChartPoint) (numSeries : Nat) :
    (points.length ≤ 256 → maybe_merge_points points numSeries = points)
    ∧ (256 < points.length →
        maybe_merge_points points numSeries =
          (chunksOf (2 ^ (Nat.clog 2 points.length - 8)) points).map (chunkMerge numSeries))
    ∧ (maybe_merge_points points numSeries).length ≤ 256 := by
  by_cases hemp : points = []
  · subst hemp
    refine ⟨fun _ => rfl, fun h => by simp at h, ?_⟩
    simp [maybe_merge_points]
  · have hiff : Nat.clog 2 points.length ≤ 8 ↔ points.length ≤ 256 := by
      rw [show (256 : Nat) = 2 ^ 8 by norm_num]
      exact (Nat.le_pow_iff_clog_le (by norm_num)).symm
    by_cases hlog : Nat.clog 2 points.length ≤ 8
    · have heq : maybe_merge_points points numSeries = points := by
        rw [maybe_merge_points, if_neg hemp]
        simp only [hlog, if_true]
      exact ⟨fun _ => heq, fun h => absurd (hiff.mp hlog) (by omega),
        by rw [heq]; exact hiff.mp hlog⟩
    · have heq : maybe_merge_points points numSeries =
          (chunksOf (2 ^ (Nat.clog 2 points.length - 8)) points).map (chunkMerge numSeries) := by
        rw [maybe_merge_points, if_neg hemp]
        simp only [hlog, if_false]
      have hlen : ((chunksOf (2 ^ (Nat.clog 2 points.length - 8)) points).map
          (chunkMerge numSeries)).length ≤ 256 := by
        rw [List.length_map]
        apply chunksOf_length_le _ (Nat.pos_pow_of_pos _ (by norm_num)) 256
        have hle : points.length ≤ 2 ^ Nat.clog 2 points.length :=
          Nat.le_pow_clog (by norm_num) _
        have hc8 : 8 ≤ Nat.clog 2 points.length := by omega
        have hpow : 2 ^ (Nat.clog 2 points.length - 8) * 256
            = 2 ^ Nat.clog 2 points.length := by
          rw [show (256 : Nat) = 2 ^ 8 by norm_num, ← pow_add]
          congr 1
          omega
        omega
      exact ⟨fun h => absurd (hiff.mpr h) hlog, fun _ => heq, by rw [heq]; exact hlen⟩

/-- C7, witness: a one-point sequence passes through unchanged and the
output is within the 256-point cap. -/
theorem maybe_merge_points_spec_witness :
    maybe_merge_points [{ name := "80", values := [1] }] 1 = [{ name := "80", values := [1] }]
    ∧ (maybe_merge_points [{ name := "80", values := [1] }] 1).length ≤ 256 :=
  ⟨(maybe_merge_points_spec [{ name := "80", values := [1] }] 1).1 (by simp),
   (maybe_merge_points_spec [{ name := "80", values := [1] }] 1).2.2⟩

/-- C8: for every nonempty weighted dataset with positive total weight
whose weighted variance is zero (the f32 test `stdev == 0.0`), the
skew-normal fitter returns the degenerate parameters `alpha = 0`,
`omega = 1`, `xi =` the weighted mean of the data; the fitter is a
total function, so it never fails on any input. -/
theorem fit_zero_variance (data : List (Int × ℚ)) (hne : data ≠ [])
    (hw : 0 < totalWeight data) (hv : (calc_weighted_stats data).2 = 0) :
    fit_weighted_skewnorm data = (0, 1, ((calc_weighted_stats data).1 : ℝ))
    ∧ (calc_weighted_stats data).1
      = (data.map fun p => (p.1 : ℚ) * p.2).sum / totalWeight data := by
  constructor
  · rw [fit_weighted_skewnorm]
    simp [hv]
  · rw [calc_weighted_stats, if_neg hne, if_neg (not_le.mpr hw)]

/-- C8, witness: the fitter applied to the zero-variance dataset
`[(5, 1), (5, 1)]`. -/
theorem fit_zero_variance_witness :
    fit_weighted_skewnorm [(5, 1), (5, 1)]
      = (0, 1, ((calc_weighted_stats [((5 : Int), (1 : ℚ)), (5, 1)]).1 : ℝ))
    ∧ (calc_weighted_stats [((5 : Int), (1 : ℚ)), (5, 1)]).1
      = (([((5 : Int), (1 : ℚ)), (5, 1)]).map fun p => (p.1 : ℚ) * p.2).sum
        / totalWeight [((5 : Int), (1 : ℚ)), (5, 1)] :=
  fit_zero_variance [(5, 1), (5, 1)] (by simp) (by norm_num [totalWeight])
    (by rw [calc_weighted_stats, if_neg (by simp), if_neg (by norm_num [totalWeight])]
        norm_num [totalWeight])

/-- C9: if either the location (xi) or the shape (omega) parameter of a
contestant's fitted stats is NaN, every distribution draw returns the
DNF sentinel, whatever the random draws and the DNF-modelling flag —
the `is_nan` guard runs before the DNF check and before sampling. -/
theorem nan_stats_give_dnf (stats : CompetitorStats) (includeDnf : Bool) (uDnf u0 v : ℝ)
    (h : stats.location = none ∨ stats.shape = none) :
    generate_skewnorm_value stats includeDnf uDnf u0 v = DNF_VALUE := by
  obtain ⟨loc, shp, sk, dr⟩ := stats
  rcases h with h | h
  · simp only at h
    subst h
    cases shp <;> rfl
  · simp only at h
    subst h
    cases loc <;> rfl

/-- C9, witness: a NaN location with a finite shape forces a DNF
draw. -/
theorem nan_stats_give_dnf_witness :
    generate_skewnorm_value
      { location := none, shape := some 1, skew := 0, dnf_rate := 0 } false 0 0 0
      = DNF_VALUE :=
  nan_stats_give_dnf { location := none, shape := some 1, skew := 0, dnf_rate := 0 }
    false 0 0 0 (Or.inl rfl)

end WcaOdds
